import Mathlib

/-!
Verification development for the envkit repository: environment resolution,
priority merge, validation and write-back.

JavaScript strings are modelled as `List Char`; JavaScript objects
(`Record<string, string>`) as insertion-ordered association lists with
JS assignment semantics (`setKey` overwrites in place, appends fresh keys).
-/

set_option autoImplicit false

/-- JavaScript string, modelled as its list of characters. -/
abbrev Str := List Char

/-- Coerce a Lean string literal to the JS string model. -/
def str (s : String) : Str := s.data

/-- `Record<string, string>`: insertion-ordered key/value pairs. -/
abbrev Record := List (Str × Str)

/-- `Record<string, string | undefined>`. -/
abbrev OptRecord := List (Str × Option Str)

/-- Whitespace in the sense of JavaScript `String.prototype.trim`
(ECMAScript WhiteSpace and LineTerminator productions). -/
def isJsWs (c : Char) : Bool :=
  c = ' ' || c = '\t' || c = '\n' || c = '\r' || c = '\x0b' || c = '\x0c' ||
  c = '\u00a0' || c = '\u1680' || ('\u2000' ≤ c && c ≤ '\u200a') ||
  c = '\u2028' || c = '\u2029' || c = '\u202f' || c = '\u205f' ||
  c = '\u3000' || c = '\ufeff'

/-- JS line terminators (the characters a JS regex `.` does not match). -/
def isLineTermB (c : Char) : Bool :=
  c = '\n' || c = '\r' || c = '\u2028' || c = '\u2029'

/-- Left trim, as in JS `trimStart`. -/
def trimL (s : Str) : Str := s.dropWhile isJsWs

/-- Right trim, as in JS `trimEnd`. -/
def trimR (s : Str) : Str := (s.reverse.dropWhile isJsWs).reverse

/-- JS `String.prototype.trim`. -/
def trim (s : Str) : Str := trimR (trimL s)

/-- Prepend a character to the first segment of a non-empty segment list. -/
def consHead (c : Char) : List Str → List Str
  | [] => [[c]]
  | h :: t => (c :: h) :: t

/-- JS `content.split('\n')`: always returns at least one (possibly empty)
segment; a trailing separator yields a trailing empty segment. -/
def splitLinesJs (s : Str) : List Str :=
  match s with
  | [] => [[]]
  | c :: cs =>
    if c = '\n' then [] :: splitLinesJs cs
    else consHead c (splitLinesJs cs)

/-- JS `lines.join('\n')`. -/
def joinLines : List Str → Str
  | [] => []
  | [l] => l
  | l :: ls => l ++ '\n' :: joinLines ls

/-- Split a string at its first `'='`: returns the (`'='`-free) part before
and the part after it, or `none` when there is no `'='`. -/
def firstEqSplit : Str → Option (Str × Str)
  | [] => none
  | c :: cs =>
    if c = '=' then some ([], cs)
    else (firstEqSplit cs).map (fun p => (c :: p.1, p.2))

/-- JS `String.prototype.substring` with its index clamping and the
swap of the two indices when `a > b`. -/
def jsSubstring (s : Str) (a b : Nat) : Str :=
  let a2 := min a s.length
  let b2 := min b s.length
  let lo := min a2 b2
  let hi := max a2 b2
  (s.drop lo).take (hi - lo)

/-- A single or double quote character. -/
def isQuoteChar (c : Char) : Bool := c = '"' || c = '\''

/-- JS object key-membership test (`key in obj`). -/
def hasKey (r : Record) (k : Str) : Bool := r.any (fun p => p.1 == k)

/-- JS object property read `r[k]` (for string-valued records):
`some` when present, `none` for `undefined`. -/
def lookupRec (r : Record) (k : Str) : Option Str :=
  (r.find? (fun p => p.1 == k)).map (·.2)

/-- JS object assignment `r[k] = v`: overwrite in place when the key exists
(keeping its original position), append otherwise. -/
def setKey (r : Record) (k v : Str) : Record :=
  if hasKey r k then r.map (fun p => if p.1 == k then (k, v) else p)
  else r ++ [(k, v)]

/-- JS object spread `{ ...base, ...ext }`: fold assignment of `ext`'s
entries (in order) over `base`; `ext` wins on key collisions. -/
def spread (base ext : Record) : Record :=
  ext.foldl (fun acc p => setKey acc p.1 p.2) base

/-- Keys of `r` are pairwise distinct (true of every record obtained from a
JS object). -/
def NodupKeys (r : Record) : Prop := (r.map Prod.fst).Nodup

/-- Read of `Record<string, string | undefined>` flattened:
`none` both for an absent key and for a present-but-`undefined` value. -/
def flatLookup (r : OptRecord) (k : Str) : Option Str :=
  ((r.find? (fun p => p.1 == k)).map (·.2)).bind id

/-- JS falsiness of a `string | undefined` value (`!value`):
true for `undefined` and for the empty string. -/
def jsFalsyOpt (v : Option Str) : Bool :=
  match v with
  | none => true
  | some s => s.isEmpty

/-! ## EnvTextParser: the two `parseEnvFile` implementations and the
serializer, translated from the source. -/

/-- Quote stripping of `packages/core/src/server/index.ts` `parseEnvFile`
(lines 79-83): if the value starts and ends with the same quote character,
`value.substring(1, value.length - 1)` (JS `substring`, so a length-1
quote is returned unchanged by the index swap). -/
def stripQuotesCore (v : Str) : Str :=
  if ((v.head? == some '"') && (v.getLast? == some '"')) ||
     ((v.head? == some '\'') && (v.getLast? == some '\'')) then
    jsSubstring v 1 (v.length - 1)
  else v

/-- One line of `packages/core/src/server/index.ts` `parseEnvFile`:
comment/empty test on the trimmed line, but `indexOf('=')` and the two
`substring`s on the raw line, requiring the first `'='` at index `> 0`. -/
def parseLineCore (acc : Record) (line : Str) : Record :=
  if (trim line).isEmpty || ((trim line).head? == some '#') then acc
  else
    match firstEqSplit line with
    | none => acc
    | some (k0, v0) =>
      if k0.isEmpty then acc
      else setKey acc (trim k0) (stripQuotesCore (trim v0))

/-- `parseEnvFile` of `packages/core/src/server/index.ts` (lines 63-90). -/
def parseEnvFileCore (content : Str) : Record :=
  (splitLinesJs content).foldl parseLineCore []

/-- Quote stripping of `src/lib/envkit/fileUtils.ts` `parseEnvFile`
(line 106): `value.replace(/^["'](.*)["']$/, '$1')`. The two quote
characters are matched independently (a mismatched pair is stripped too);
the match needs length ≥ 2 and a middle free of line terminators
(JS `.` does not match them). -/
def stripQuotesFU (v : Str) : Str :=
  match v with
  | c :: d :: ds =>
    if isQuoteChar c && isQuoteChar ((d :: ds).getLastD ' ') &&
       !((d :: ds).dropLast.any isLineTermB) then
      (d :: ds).dropLast
    else v
  | _ => v

/-- One line of `src/lib/envkit/fileUtils.ts` `parseEnvFile`: the regex
`/^([^=]+)=(.*)$/` is applied to the trimmed line, so the key part must be
non-empty and the value part free of line terminators. -/
def parseLineFU (acc : Record) (line : Str) : Record :=
  if (trim line).isEmpty || ((trim line).head? == some '#') then acc
  else
    match firstEqSplit (trim line) with
    | none => acc
    | some (k0, v0) =>
      if k0.isEmpty || v0.any isLineTermB then acc
      else setKey acc (trim k0) (stripQuotesFU (trim v0))

/-- `parseEnvFile` of `src/lib/envkit/fileUtils.ts` (lines 92-112). -/
def parseEnvFileFU (content : Str) : Record :=
  (splitLinesJs content).foldl parseLineFU []

/-- `stringifyEnvFile` of `packages/core/src/server/index.ts` (lines
97-101): `KEY=VALUE` lines joined by `'\n'`. The same expression formats
the file content in `writeEnvVars` (`packages/nextjs/src/server.ts`,
lines 123-130) and in `writeEnvFile` (`src/lib/envkit/fileUtils.ts`,
lines 139-141). -/
def stringifyEnvFile (env : Record) : Str :=
  joinLines (env.map (fun p => p.1 ++ '=' :: p.2))

/-! ## Reference parser from the claim's words. -/

/-- Modelled from the spec: quote stripping as the spec states it — strip
exactly one layer iff the value is wholly wrapped in matching single or
double quotes (so a pair of length ≥ 2 with equal quote characters at both
ends; a mismatched pair is left unchanged). -/
def stripQuotesSpec (v : Str) : Str :=
  match v with
  | c :: d :: ds =>
    if (c == '"' && ((d :: ds).getLastD ' ') == '"') ||
       (c == '\'' && ((d :: ds).getLastD ' ') == '\'') then
      (d :: ds).dropLast
    else v
  | _ => v

/-- Modelled from the spec: one line of the reference algorithm of §4.2 —
trim the line; skip if empty or a `#` comment; split on the first `'='`
and skip iff there is none; trim key and value; strip matching quotes. -/
def parseLineSpec (acc : Record) (line : Str) : Record :=
  if (trim line).isEmpty || ((trim line).head? == some '#') then acc
  else
    match firstEqSplit (trim line) with
    | none => acc
    | some (k0, v0) => setKey acc (trim k0) (stripQuotesSpec (trim v0))

/-- Modelled from the spec: the reference line-by-line parsing algorithm
(spec §4.2), with later occurrences of a key overwriting earlier ones. -/
def parseEnvSpec (content : Str) : Record :=
  (splitLinesJs content).foldl parseLineSpec []

/-! ## FileLocator and PriorityMerger. -/

/-- The filesystem, as seen through `fs.existsSync`/`fs.readFileSync` of one
directory: file name to content (`none` when the file does not exist). -/
abbrev Fs := Str → Option Str

/-- JS `x || 'development'` on `process.env.NODE_ENV`: the default applies
both to `undefined` and to the empty string. -/
def jsOrDefault (v : Option Str) (d : Str) : Str :=
  match v with
  | some s => if s.isEmpty then d else s
  | none => d

/-- `getEnvFilePaths` of `src/lib/envkit/fileUtils.ts` (lines 23-42):
builds `['.env']`, then `unshift`s `.env.{mode}`, `.env.{mode}.local`,
`.env.local` in front (in that order), and filters to existing files.
`existsF` abstracts `fs.existsSync(path.resolve(basePath, file))`. -/
def getEnvFilePaths (nodeEnv : Option Str) (existsF : Str → Bool)
    (includeEnvExtensions : Bool) : List Str :=
  let ne := jsOrDefault nodeEnv (str "development")
  let envFiles :=
    if includeEnvExtensions then
      [str ".env." ++ ne, str ".env." ++ ne ++ str ".local",
       str ".env.local", str ".env"]
    else [str ".env"]
  envFiles.filter existsF

/-- `readEnvFiles` of `src/lib/envkit/fileUtils.ts` (lines 47-66): read the
located files in reverse order, folding `{ ...envVars, ...fileVars }`. -/
def readEnvFiles (nodeEnv : Option Str) (files : Fs)
    (includeEnvExtensions : Bool) : Record :=
  let envFilePaths := getEnvFilePaths nodeEnv (fun f => (files f).isSome)
    includeEnvExtensions
  envFilePaths.reverse.foldl
    (fun envVars filePath =>
      match files filePath with
      | some content => spread envVars (parseEnvFileFU content)
      | none => envVars)
    []

/-- `getEnvValue` of `src/lib/envkit/fileUtils.ts` (lines 117-126):
`process.env` first (`!== undefined`), then the merged `.env` files. -/
def getEnvValue (procEnv : Record) (nodeEnv : Option Str) (files : Fs)
    (key : Str) : Option Str :=
  match lookupRec procEnv key with
  | some v => some v
  | none => lookupRec (readEnvFiles nodeEnv files true) key

/-- `loadEnvVars` of `packages/nextjs/src/server.ts` (lines 49-84): start
from `{ ...process.env }` and fold each existing env file (priority order,
highest first) with `{ ...parsed, ...merged }` so that the accumulated
(higher-priority) entries win. `files` abstracts existence check, read and
`dotenv.parse` of one file: the parsed record, or `none` if absent. -/
def loadEnvVars (procEnv : Record) (files : Str → Option Record)
    (envFiles : List Str) : Record :=
  envFiles.foldl
    (fun merged fileName =>
      match files fileName with
      | some parsed => spread parsed merged
      | none => merged)
    procEnv

/-- The default `envFiles` list of `loadEnvVars`. -/
def defaultEnvFiles : List Str :=
  [str ".env.local", str ".env.development.local",
   str ".env.development", str ".env"]

/-! ## SchemaValidator: `envValidator.ts` and `packages/core/src/schema.ts`. -/

/-- `EnvVarConfig` of `src/lib/envkit/envValidator.ts` (the unnamed source
`src/unnamed/part_002`; its name follows from the `./envValidator` imports
of its sibling modules). -/
structure EnvVarConfig where
  name : Str
  required : Bool
  description : Option Str := none
  defaultValue : Option Str := none
deriving DecidableEq, Repr

/-- `ValidationResult` of `src/lib/envkit/envValidator.ts`. -/
structure ValidationResult where
  isValid : Bool
  missingVars : List EnvVarConfig
  allVars : List EnvVarConfig
deriving DecidableEq, Repr

/-- `validateEnv` of `src/lib/envkit/envValidator.ts` (lines 23-40): a spec
is pushed onto `missingVars` iff `required && !value && !defaultValue`,
where `value = getEnvValue(name)`. -/
def validateEnv (procEnv : Record) (nodeEnv : Option Str) (files : Fs)
    (envVars : List EnvVarConfig) : ValidationResult :=
  let missingVars := envVars.foldl
    (fun acc envVar =>
      if envVar.required &&
         jsFalsyOpt (getEnvValue procEnv nodeEnv files envVar.name) &&
         jsFalsyOpt envVar.defaultValue then
        acc ++ [envVar]
      else acc)
    []
  { isValid := missingVars.isEmpty
    missingVars := missingVars
    allVars := envVars }

/-- The schema built by `createEnvSchema` of `packages/core/src/schema.ts`:
a valibot `object` whose properties are `string()` for required names and
`optional(string())` for optional ones. -/
structure EnvSchema where
  required : List Str
  optionalKeys : List Str
deriving DecidableEq, Repr

/-- `createEnvSchema` of `packages/core/src/schema.ts` (lines 9-27). -/
def createEnvSchema (requiredVars : List Str)
    (optionalVars : List Str) : EnvSchema :=
  { required := requiredVars, optionalKeys := optionalVars }

/-- One issue of a failed valibot parse; `pathKey` is `issue.path[0].key`. -/
structure SchemaIssue where
  pathKey : Str
deriving DecidableEq, Repr

/-- Result of valibot's `safeParse`. -/
structure SafeParseResult where
  success : Bool
  output : Option OptRecord
  issues : List SchemaIssue
deriving DecidableEq, Repr

/-- valibot 0.28 `safeParse` on an object schema of `string()` /
`optional(string())` properties: it succeeds iff every required key holds a
defined string (the empty string is a string, so it passes); on failure,
`issues` is the list of issues, one per missing required key; unknown keys
are stripped, not errors. -/
def vSafeParse (schema : EnvSchema) (env : OptRecord) : SafeParseResult :=
  let missing := schema.required.filter (fun k => (flatLookup env k).isNone)
  if missing.isEmpty then
    { success := true
      output := some (env.filter
        (fun p => (schema.required ++ schema.optionalKeys).contains p.1))
      issues := [] }
  else
    { success := false
      output := none
      issues := missing.map (fun k => { pathKey := k }) }

/-- In valibot, `safeParse` returns `issues` as a plain array of issue
objects; `ValiError` is the `Error` subclass thrown by `parse`. An array is
never an instance of `ValiError`, so the test
`result.issues instanceof ValiError` in `schema.ts` is constantly false
(and had it been true, an `Error` would have no `forEach`). -/
def issuesInstanceOfValiError : Bool := false

/-- Return type of `validateEnv` of `packages/core/src/schema.ts`. -/
structure SchemaValidateResult where
  success : Bool
  data : Option OptRecord
  missingVars : List Str
deriving DecidableEq, Repr

/-- `validateEnv` of `packages/core/src/schema.ts` (lines 35-57): runs
`safeParse`, then extracts `missingVars` from the issues only under the
`result.issues instanceof ValiError` guard. -/
def validateEnvSchema (schema : EnvSchema)
    (env : OptRecord) : SchemaValidateResult :=
  let result := vSafeParse schema env
  let missingVars :=
    if !result.success && issuesInstanceOfValiError then
      result.issues.map (fun issue => issue.pathKey)
    else []
  { success := result.success
    data := if result.success then result.output else none
    missingVars := missingVars }

/-- `getMissingEnvVars` of `packages/core/src/schema.ts` (lines 65-67):
`requiredVars.filter(key => !env[key])`. -/
def getMissingEnvVars (requiredVars : List Str)
    (env : OptRecord) : List Str :=
  requiredVars.filter (fun key => jsFalsyOpt (flatLookup env key))

/-! ## FileMergeWriter / PersistenceService. -/

/-- `WriteEnvResult` of `packages/nextjs/src/server.ts`. -/
structure WriteEnvResult where
  success : Bool
  path : Str
  error : Option Str
deriving DecidableEq, Repr

/-- `writeEnvVars` of `packages/nextjs/src/server.ts` (lines 98-148): read
the target file if it exists, parse it with `dotenv.parse` (abstracted as
`dparse`), merge `{ ...existing, ...variables }`, serialize one
`KEY=VALUE` line per entry and overwrite the file. A failing
`fs.writeFileSync` throws; the `catch` returns
`{ success: false, path: '', error: message }` and the file keeps its
previous content (`writeError` is the thrown message, `none` on success). -/
def writeEnvVars (dparse : Str → Record) (vars : Record)
    (targetEnvFile : Str) (fs : Fs)
    (writeError : Option Str) : WriteEnvResult × Fs :=
  let envContent :=
    match fs targetEnvFile with
    | some existingContent =>
      stringifyEnvFile (spread (dparse existingContent) vars)
    | none => stringifyEnvFile vars
  match writeError with
  | some e => ({ success := false, path := [], error := some e }, fs)
  | none =>
    ({ success := true, path := targetEnvFile, error := none },
     fun f => if f == targetEnvFile then some envContent else fs f)

/-- `readEnvFile` of `src/lib/envkit/fileUtils.ts` (lines 71-87): `{}` when
the file does not exist, else its parsed content. -/
def readEnvFile (fs : Fs) (envFilePath : Str) : Record :=
  match fs envFilePath with
  | some content => parseEnvFileFU content
  | none => []

/-- `writeEnvFile` of `src/lib/envkit/fileUtils.ts` (lines 131-149):
serialize and overwrite; `false` when the write throws (`writeError` is
the thrown message), leaving the file as it was. -/
def writeEnvFile (envVars : Record) (fs : Fs) (envFilePath : Str)
    (writeError : Option Str) : Bool × Fs :=
  match writeError with
  | some _ => (false, fs)
  | none =>
    (true,
     fun f => if f == envFilePath then some (stringifyEnvFile envVars)
              else fs f)

/-- `updateEnvFile` of `src/lib/envkit/fileUtils.ts` (lines 154-175): parse
the existing file (or start empty), merge `{ ...existing, ...newVars }`,
and write back through `writeEnvFile`. -/
def updateEnvFile (newVars : Record) (fs : Fs) (envFilePath : Str)
    (writeError : Option Str) : Bool × Fs :=
  let existingVars :=
    if (fs envFilePath).isSome then readEnvFile fs envFilePath else []
  writeEnvFile (spread existingVars newVars) fs envFilePath writeError

/-! ## API handlers. -/

/-- A JSON API response; fields that a given handler does not set are
`none` / `[]`. -/
structure ApiResponse where
  status : Nat
  success : Option Bool
  path : Option Str
  error : Option Str
  missingVars : List Str
deriving DecidableEq, Repr

/-- The fixed production-gate error message of the API handlers. -/
def notAvailableMsg : Str := str "Not available in production"

/-- The `NODE_ENV` value that closes the gate. -/
def prodStr : Str := str "production"

/-- The gate response `{ error: 'Not available in production' }`, 404. -/
def notAvailableResponse : ApiResponse :=
  { status := 404, success := none, path := none,
    error := some notAvailableMsg, missingVars := [] }

/-- The update handler produced by `createEnvApiHandler` of
`packages/nextjs/src/api/createEnvApiHandler.ts` (lines 156-227), after
request-body parsing: gate on `NODE_ENV === 'production'` without
`allowInProduction`; otherwise call `writeEnvVars` and build
`result = { success: true, path: rawResult.path, error: undefined }`
regardless of the raw result, answering 200. -/
def createUpdateHandlerRun (nodeEnv : Option Str) (allowInProduction : Bool)
    (body : Record) (targetEnvFile : Str) (dparse : Str → Record) (fs : Fs)
    (writeError : Option Str) : ApiResponse × Fs :=
  if (nodeEnv == some prodStr) && !allowInProduction then
    (notAvailableResponse, fs)
  else
    let r := writeEnvVars dparse body targetEnvFile fs writeError
    ({ status := 200, success := some true, path := some r.1.path,
       error := none, missingVars := [] }, r.2)

/-- `updateHandler` of the core API handlers module (the unnamed source
`src/unnamed/part_009`, lines 168-216), after request-body parsing: the same production gate, then
`writeEnvVars(body, ...)` (target `.env.local`) and a 200
`{ success: true, path }` response. -/
def updateHandlerRun (nodeEnv : Option Str) (allowInProduction : Bool)
    (body : Record) (dparse : Str → Record) (fs : Fs)
    (writeError : Option Str) : ApiResponse × Fs :=
  if (nodeEnv == some prodStr) && !allowInProduction then
    (notAvailableResponse, fs)
  else
    let r := writeEnvVars dparse body (str ".env.local") fs writeError
    ({ status := 200, success := some true, path := some r.1.path,
       error := none, missingVars := [] }, r.2)

/-- `statusHandler` of the core API handlers module (the unnamed source
`src/unnamed/part_009`, lines 105-162), with the required variables
already resolved from cookie/options: the same
production gate, then `loadEnvVars` and
`missingVars = requiredVars.filter(key => !loadedEnv[key])`. -/
def statusHandlerRun (nodeEnv : Option Str) (allowInProduction : Bool)
    (requiredVars : List Str) (procEnv : Record)
    (files : Str → Option Record) (envFiles : List Str) : ApiResponse :=
  if (nodeEnv == some prodStr) && !allowInProduction then
    notAvailableResponse
  else
    let loadedEnv := loadEnvVars procEnv files envFiles
    let missing := requiredVars.filter
      (fun key => jsFalsyOpt (lookupRec loadedEnv key))
    { status := 200, success := some missing.isEmpty, path := none,
      error := none, missingVars := missing }

/-! ## Round-trip side conditions and concrete inputs. -/

/-- The first and last characters (if any) are not JS whitespace, so
`trim` leaves the string unchanged. -/
def trimmedB (s : Str) : Bool :=
  (match s.head? with | some c => !isJsWs c | none => true) &&
  (match s.getLast? with | some c => !isJsWs c | none => true)

/-- The string starts and ends with quote characters (matching or not) and
has length ≥ 2 — the shape on which the quote-stripping steps can fire. -/
def quoteEnds (v : Str) : Bool :=
  match v with
  | c :: d :: ds => isQuoteChar c && isQuoteChar ((d :: ds).getLastD ' ')
  | _ => false

/-- A key that survives serialize-then-parse: non-empty; free of `'='`,
quotes and line terminators; trimmed; not starting with `'#'`. -/
def goodKey (k : Str) : Bool :=
  !k.isEmpty &&
  k.all (fun c => !(c = '=' || isQuoteChar c || isLineTermB c)) &&
  trimmedB k &&
  !(k.head? == some '#')

/-- A value that survives serialize-then-parse: free of line terminators
(single-line), trimmed, and not wrapped in quote characters. -/
def goodVal (v : Str) : Bool :=
  v.all (fun c => !isLineTermB c) && trimmedB v && !quoteEnds v

/-- Every pair of the record round-trips. -/
def goodRecord (r : Record) : Bool :=
  r.all (fun p => goodKey p.1 && goodVal p.2)

/-- Quote characters at both ends of a length-≥2 string match each other. -/
def matchedQuotesOK (v : Str) : Bool :=
  match v with
  | c :: d :: ds =>
    !(isQuoteChar c && isQuoteChar ((d :: ds).getLastD ' ')) ||
    ((c == '"' && ((d :: ds).getLastD ' ') == '"') ||
     (c == '\'' && ((d :: ds).getLastD ' ') == '\''))
  | _ => true

/-- Side condition of the amended C6 on one line: if the line is parsed at
all, the part before its first `'='` must not trim to nothing, the part
after it must hold no line terminator, and a quote-wrapped value must use
matching quotes. -/
def lineOK (l : Str) : Bool :=
  if (trim l).isEmpty || ((trim l).head? == some '#') then true
  else
    match firstEqSplit (trim l) with
    | none => true
    | some (k0, v0) =>
      !k0.isEmpty && !(v0.any isLineTermB) && matchedQuotesOK (trim v0)

/-- The record `updatedVars = { ...existingVars, ...newVars }` computed by
`updateEnvFile` before writing. -/
def persistedRecord (fs : Fs) (envFilePath : Str) (newVars : Record) :
    Record :=
  spread (if (fs envFilePath).isSome then readEnvFile fs envFilePath else [])
    newVars

/-- An empty directory. -/
def fsEmpty : Fs := fun _ => none

/-- Directory for the C1 failing input: `.env.local` sets `K=xyz` while
`.env.development` sets `K=abc`, and no other env file exists. -/
def c1Files : Fs := fun f =>
  if f == str ".env.local" then some (str "K=xyz")
  else if f == str ".env.development" then some (str "K=abc")
  else none

/-- A write failure message, as thrown by `fs.writeFileSync`. -/
def c2Err : Str := str "EACCES: permission denied"

/-- Parser stand-in for `dotenv.parse` in runs whose target file does not
exist, where the parser is never invoked. -/
def unusedParse : Str → Record := fun _ => []

/-- A required spec named `A` with no default value. -/
def c4cfg : EnvVarConfig := { name := str "A", required := true }

/-- The C6 failing input `K="abc'` — a value wrapped in one double and one
single quote. -/
def c6Bad : Str := str "K=\"abc" ++ ['\'']

/-- Directory for the C5/C8 witness: `.env.local` holds `FOO=0` and
`BAR=2`. -/
def c5Fs : Fs := fun f =>
  if f == str ".env.local" then some (str "FOO=0\nBAR=2") else none

/-- Directory for the C8 failing input: `.env` holds `A=""""`, whose parsed
value `""` is still quote-wrapped. -/
def c8Fs : Fs := fun f =>
  if f == str ".env" then some (str "A=\"\"\"\"") else none

/-! ## Helper lemmas. -/

/-- Folding "push `x` when `p x`" over a list is `filter`. -/
theorem foldl_push_filter {α : Type} (p : α → Bool) (l init : List α) :
    l.foldl (fun acc x => if p x then acc ++ [x] else acc) init
      = init ++ l.filter p := by
  induction l generalizing init with
  | nil => simp
  | cons x xs ih =>
    simp only [List.foldl_cons, List.filter_cons]
    cases h : p x <;> simp [h, ih]

/-- The `missingVars` of the validator-module `validateEnv` are exactly the
specs whose flag is required, resolved value is absent or empty, and
default value is absent or empty, in input order. -/
theorem validateEnv_missingVars (procEnv : Record) (nodeEnv : Option Str)
    (files : Fs) (envVars : List EnvVarConfig) :
    (validateEnv procEnv nodeEnv files envVars).missingVars
      = envVars.filter (fun v =>
          v.required &&
          jsFalsyOpt (getEnvValue procEnv nodeEnv files v.name) &&
          jsFalsyOpt v.defaultValue) := by
  simp only [validateEnv, foldl_push_filter, List.nil_append]

/-! ## Claims. -/

/-- Claim C1 (code bug): with `NODE_ENV` unset (thus `development`),
`.env.local` holding `K=xyz` and `.env.development` holding `K=abc`,
`getEnvFilePaths` orders `.env.development` above `.env.local` — against
its own priority comment — so `getEnvValue`/`readEnvFiles` resolve `K` to
`abc` from `.env.development`, not `xyz` from `.env.local` as the claimed
priority `.env.local > .env.{mode}.local > .env.{mode} > .env` requires. -/
theorem c1_mode_file_beats_env_local :
    getEnvFilePaths none (fun f => (c1Files f).isSome) true
      = [str ".env.development", str ".env.local"]
    ∧ getEnvValue [] none c1Files (str "K") = some (str "abc") :=
  ⟨rfl, rfl⟩

/-- Claim C2 (code bug): when the underlying write throws,
`writeEnvVars` itself reports `{ success: false, path: '', error }` and
leaves the file system untouched, but the update handler built on it
answers 200 with `success: true`, `path: ''` and no error. -/
theorem c2_update_handler_swallows_write_failure :
    (writeEnvVars unusedParse [(str "FOO", str "1")] (str ".env.local")
        fsEmpty (some c2Err)).1
      = { success := false, path := [], error := some c2Err }
    ∧ (writeEnvVars unusedParse [(str "FOO", str "1")] (str ".env.local")
        fsEmpty (some c2Err)).2
      = fsEmpty
    ∧ (createUpdateHandlerRun (some (str "development")) false
        [(str "FOO", str "1")] (str ".env.local") unusedParse fsEmpty
        (some c2Err)).1
      = { status := 200, success := some true, path := some [],
          error := none, missingVars := [] }
    ∧ (createUpdateHandlerRun (some (str "development")) false
        [(str "FOO", str "1")] (str ".env.local") unusedParse fsEmpty
        (some c2Err)).2
      = fsEmpty :=
  ⟨rfl, rfl, rfl, rfl⟩

/-- Claim C3 (code bug): for the schema-module `validateEnv`, validating a
schema requiring `API_KEY` against an empty environment fails
(`success = false`) yet reports no missing variables, because
`result.issues instanceof ValiError` never holds; the invariant
`isValid == (missingVars.length == 0)` is therefore violated. -/
theorem c3_schema_validateEnv_invariant_fails :
    (validateEnvSchema (createEnvSchema [str "API_KEY"] []) []).success
      = false
    ∧ (validateEnvSchema (createEnvSchema [str "API_KEY"] []) []).missingVars
      = []
    ∧ ¬(((validateEnvSchema (createEnvSchema [str "API_KEY"] [])
          []).success = true)
        ↔ (validateEnvSchema (createEnvSchema [str "API_KEY"] [])
          []).missingVars.length = 0) := by
  decide

/-- Claim C4 counterexample: for a required spec with no default whose
resolved value is present but empty (`process.env.A = ""`), the spec is
placed in `missingVars` although the claimed characterization
"missing iff required AND not present AND default empty" says it is
satisfied: the claimed equivalence fails at this input. -/
theorem c4_present_empty_counted_missing :
    getEnvValue [(str "A", [])] none fsEmpty (str "A") = some []
    ∧ c4cfg ∈ (validateEnv [(str "A", [])] none fsEmpty [c4cfg]).missingVars
    ∧ ¬(c4cfg ∈ (validateEnv [(str "A", [])] none fsEmpty
          [c4cfg]).missingVars
        ↔ (c4cfg.required = true
           ∧ getEnvValue [(str "A", [])] none fsEmpty c4cfg.name = none
           ∧ jsFalsyOpt c4cfg.defaultValue = true)) := by
  decide

/-- Claim C4 as amended: a spec appears in `missingVars` iff it is
required, its resolved value is absent *or empty*, and its default value
is absent or empty; `missingVars` follows the input order (it is a
`filter` of the input), and a required spec with a non-empty
`defaultValue` is never in it, so validation of such specs alone yields
`isValid = true`. -/
theorem c4_missing_iff_falsy_value_and_default (procEnv : Record)
    (nodeEnv : Option Str) (files : Fs) (envVars : List EnvVarConfig) :
    (validateEnv procEnv nodeEnv files envVars).missingVars
      = envVars.filter (fun v =>
          v.required &&
          jsFalsyOpt (getEnvValue procEnv nodeEnv files v.name) &&
          jsFalsyOpt v.defaultValue)
    ∧ ((validateEnv procEnv nodeEnv files envVars).isValid = true
       ↔ (validateEnv procEnv nodeEnv files envVars).missingVars = []) := by
  refine ⟨validateEnv_missingVars procEnv nodeEnv files envVars, ?_⟩
  simp [validateEnv, List.isEmpty_iff]

/-- Claim C9: while `NODE_ENV` is `production` and `allowInProduction` is
not set, the Next.js update handler, the core update handler and the core
status handler all answer the fixed 404 "Not available in production"
response, and the file system is returned unchanged. -/
theorem c9_production_gate (nodeEnv : Option Str) (allow : Bool)
    (body : Record) (target : Str) (dparse : Str → Record) (fs : Fs)
    (we : Option Str) (requiredVars : List Str) (procEnv : Record)
    (files : Str → Option Record) (envFiles : List Str)
    (h1 : nodeEnv = some prodStr) (h2 : allow = false) :
    createUpdateHandlerRun nodeEnv allow body target dparse fs we
      = (notAvailableResponse, fs)
    ∧ updateHandlerRun nodeEnv allow body dparse fs we
      = (notAvailableResponse, fs)
    ∧ statusHandlerRun nodeEnv allow requiredVars procEnv files envFiles
      = notAvailableResponse := by
  subst h1; subst h2
  exact ⟨rfl, rfl, rfl⟩

/-- Witness for C9 at a concrete production-mode input. -/
theorem c9_production_gate_witness :
    createUpdateHandlerRun (some prodStr) false [(str "A", str "1")]
        (str ".env.local") unusedParse fsEmpty none
      = (notAvailableResponse, fsEmpty)
    ∧ updateHandlerRun (some prodStr) false [(str "A", str "1")]
        unusedParse fsEmpty none
      = (notAvailableResponse, fsEmpty)
    ∧ statusHandlerRun (some prodStr) false [str "API_KEY"] []
        (fun _ => none) defaultEnvFiles
      = notAvailableResponse :=
  c9_production_gate (some prodStr) false [(str "A", str "1")]
    (str ".env.local") unusedParse fsEmpty none [str "API_KEY"] []
    (fun _ => none) defaultEnvFiles rfl rfl

/-- Claim C10: a present-but-empty resolved value is treated as absent by
every missing-variable computation: the validator module puts such a
required no-default spec into `missingVars`, `getMissingEnvVars` reports
its key, and the status handler's filter reports it as missing. -/
theorem c10_present_empty_treated_as_absent (procEnv : Record)
    (nodeEnv : Option Str) (files : Fs) (cfg : EnvVarConfig)
    (envVars : List EnvVarConfig) (env : OptRecord)
    (requiredVars : List Str) (k : Str) (nodeEnvS : Option Str)
    (allowS : Bool) (procEnvS : Record) (loadFiles : Str → Option Record)
    (envFiles : List Str)
    (h1 : cfg.required = true) (h2 : jsFalsyOpt cfg.defaultValue = true)
    (h3 : getEnvValue procEnv nodeEnv files cfg.name = some [])
    (h4 : cfg ∈ envVars)
    (h5 : k ∈ requiredVars) (h6 : flatLookup env k = some [])
    (h7 : lookupRec (loadEnvVars procEnvS loadFiles envFiles) k = some [])
    (h8 : ((nodeEnvS == some prodStr) && !allowS) = false) :
    cfg ∈ (validateEnv procEnv nodeEnv files envVars).missingVars
    ∧ k ∈ getMissingEnvVars requiredVars env
    ∧ k ∈ (statusHandlerRun nodeEnvS allowS requiredVars procEnvS
        loadFiles envFiles).missingVars := by
  have hf : jsFalsyOpt (some ([] : Str)) = true := rfl
  refine ⟨?_, ?_, ?_⟩
  · rw [validateEnv_missingVars]
    exact List.mem_filter.mpr ⟨h4, by simp [h1, h2, h3, hf]⟩
  · exact List.mem_filter.mpr ⟨h5, by simp [getMissingEnvVars, h6, hf]⟩
  · simp only [statusHandlerRun, h8, if_false]
    exact List.mem_filter.mpr ⟨h5, by simp [h7, hf]⟩

/-- Witness for C10 at concrete inputs with empty-string values. -/
theorem c10_present_empty_treated_as_absent_witness :
    c4cfg ∈ (validateEnv [(str "A", [])] none fsEmpty [c4cfg]).missingVars
    ∧ str "K" ∈ getMissingEnvVars [str "K"] [(str "K", some [])]
    ∧ str "K" ∈ (statusHandlerRun none false [str "K"] [(str "K", [])]
        (fun _ => none) defaultEnvFiles).missingVars :=
  c10_present_empty_treated_as_absent [(str "A", [])] none fsEmpty c4cfg
    [c4cfg] [(str "K", some [])] [str "K"] (str "K") none false
    [(str "K", [])] (fun _ => none) defaultEnvFiles rfl rfl rfl
    (List.mem_singleton.mpr rfl) (List.mem_singleton.mpr rfl) rfl rfl rfl

/-! ## Record algebra. -/

theorem spread_nil (base : Record) : spread base [] = base := rfl

theorem spread_cons (base : Record) (p : Str × Str) (ext : Record) :
    spread base (p :: ext) = spread (setKey base p.1 p.2) ext := rfl

theorem not_mem_keys_of_hasKey_false {r : Record} {k : Str}
    (h : hasKey r k = false) : k ∉ r.map Prod.fst := by
  intro hk
  rcases List.mem_map.mp hk with ⟨p, hp, hpk⟩
  have := (List.any_eq_false.mp h) p hp
  simp [hpk] at this

theorem hasKey_false_of_not_mem_keys {r : Record} {k : Str}
    (h : k ∉ r.map Prod.fst) : hasKey r k = false := by
  apply List.any_eq_false.mpr
  intro p hp
  simp only [beq_iff_eq]
  intro hpk
  exact h (List.mem_map.mpr ⟨p, hp, hpk⟩)

theorem lookupRec_eq_none_of_hasKey_false {r : Record} {k : Str}
    (h : hasKey r k = false) : lookupRec r k = none := by
  have hfind : r.find? (fun p => p.1 == k) = none :=
    List.find?_eq_none.mpr (List.any_eq_false.mp h)
  simp [lookupRec, hfind]

theorem setKey_of_hasKey_false {r : Record} {k v : Str}
    (h : hasKey r k = false) : setKey r k v = r ++ [(k, v)] := by
  simp [setKey, h]

theorem map_fst_setKey_of_hasKey_true {r : Record} {k : Str} (v : Str)
    (h : hasKey r k = true) :
    (setKey r k v).map Prod.fst = r.map Prod.fst := by
  simp only [setKey, h, if_true]
  rw [List.map_map]
  apply List.map_congr_left
  intro p _
  by_cases hpk : p.1 = k
  · simp [hpk]
  · simp [Function.comp, hpk]

theorem nodupKeys_setKey {r : Record} {k v : Str} (h : NodupKeys r) :
    NodupKeys (setKey r k v) := by
  unfold NodupKeys at *
  cases hk : hasKey r k with
  | true => rw [map_fst_setKey_of_hasKey_true v hk]; exact h
  | false =>
    rw [setKey_of_hasKey_false hk, List.map_append]
    refine List.nodup_append.mpr ⟨h, List.nodup_singleton _, ?_⟩
    intro a ha hb
    simp only [List.map_cons, List.map_nil, List.mem_singleton] at hb
    subst hb
    exact not_mem_keys_of_hasKey_false hk ha

theorem nodupKeys_spread {base : Record} (ext : Record)
    (h : NodupKeys base) : NodupKeys (spread base ext) := by
  induction ext generalizing base with
  | nil => exact h
  | cons p ext ih => rw [spread_cons]; exact ih (nodupKeys_setKey h)

theorem find?_setKey_map_self {k v : Str} :
    ∀ (r : Record), hasKey r k = true →
      (r.map (fun p => if p.1 == k then (k, v) else p)).find?
        (fun p => p.1 == k) = some (k, v) := by
  intro r
  induction r with
  | nil => intro h; simp [hasKey] at h
  | cons p r ih =>
    intro h
    by_cases hpk : p.1 = k
    · have hb : (p.1 == k) = true := beq_iff_eq.mpr hpk
      rw [List.map_cons, if_pos hb]
      exact List.find?_cons_of_pos _ (by simp)
    · have hb : (p.1 == k) = false := by simp [hpk]
      have hr : hasKey r k = true := by
        simpa [hasKey, List.any_cons, hb] using h
      rw [List.map_cons, if_neg (by simp [hb])]
      rw [List.find?_cons_of_neg _ (by simp [hpk])]
      exact ih hr

theorem lookupRec_setKey_self (r : Record) (k v : Str) :
    lookupRec (setKey r k v) k = some v := by
  cases hk : hasKey r k with
  | true =>
    simp only [setKey, hk, if_true, lookupRec]
    rw [find?_setKey_map_self r hk]
    rfl
  | false =>
    rw [setKey_of_hasKey_false hk]
    have hfind : r.find? (fun p => p.1 == k) = none :=
      List.find?_eq_none.mpr (List.any_eq_false.mp hk)
    simp [lookupRec, List.find?_append, hfind]

theorem find?_setKey_map_ne {k' v k : Str} (hne : ¬(k' = k)) :
    ∀ (r : Record),
      (r.map (fun p => if p.1 == k' then (k', v) else p)).find?
        (fun p => p.1 == k) = r.find? (fun p => p.1 == k) := by
  intro r
  induction r with
  | nil => rfl
  | cons p r ih =>
    by_cases hpk : p.1 = k'
    · have hb : (p.1 == k') = true := beq_iff_eq.mpr hpk
      have hk : ¬(p.1 = k) := by rw [hpk]; exact hne
      rw [List.map_cons, if_pos hb]
      rw [List.find?_cons_of_neg _ (by simp [hne])]
      rw [List.find?_cons_of_neg _ (by simp [hk])]
      exact ih
    · have hb : (p.1 == k') = false := by simp [hpk]
      by_cases hk : p.1 = k
      · rw [List.map_cons, if_neg (by simp [hb])]
        rw [List.find?_cons_of_pos _ (by simp [hk]),
          List.find?_cons_of_pos _ (by simp [hk])]
      · rw [List.map_cons, if_neg (by simp [hb])]
        rw [List.find?_cons_of_neg _ (by simp [hk]),
          List.find?_cons_of_neg _ (by simp [hk])]
        exact ih

theorem lookupRec_setKey_ne {k' k : Str} (r : Record) (v : Str)
    (hne : ¬(k' = k)) : lookupRec (setKey r k' v) k = lookupRec r k := by
  cases hk : hasKey r k' with
  | true =>
    simp only [setKey, hk, if_true, lookupRec]
    rw [find?_setKey_map_ne hne r]
  | false =>
    rw [setKey_of_hasKey_false hk]
    simp only [lookupRec, List.find?_append]
    cases hf : r.find? (fun p => p.1 == k) with
    | some p => simp
    | none => simp [hne]

theorem lookupRec_spread_notin {k : Str} :
    ∀ (ext base : Record), (∀ p ∈ ext, ¬(p.1 = k)) →
      lookupRec (spread base ext) k = lookupRec base k := by
  intro ext
  induction ext with
  | nil => intro base _; rfl
  | cons p ext ih =>
    intro base h
    rw [spread_cons]
    rw [ih (setKey base p.1 p.2)
      (fun q hq => h q (List.mem_cons_of_mem p hq))]
    exact lookupRec_setKey_ne base p.2 (h p (List.mem_cons_self p ext))

theorem lookupRec_spread_mem {k w : Str} :
    ∀ (ext base : Record), (ext.map Prod.fst).Nodup → (k, w) ∈ ext →
      lookupRec (spread base ext) k = some w := by
  intro ext
  induction ext with
  | nil => intro base _ h; simp at h
  | cons p ext ih =>
    intro base hnd hmem
    have hnd2 : (ext.map Prod.fst).Nodup := by
      simp only [List.map_cons, List.nodup_cons] at hnd
      exact hnd.2
    rw [spread_cons]
    rcases List.mem_cons.mp hmem with heq | htail
    · subst heq
      have hnotin : k ∉ ext.map Prod.fst := by
        simp only [List.map_cons, List.nodup_cons] at hnd
        exact hnd.1
      rw [lookupRec_spread_notin ext (setKey base k w)
        (fun q hq hqk => hnotin (List.mem_map.mpr ⟨q, hq, hqk⟩))]
      exact lookupRec_setKey_self base k w
    · exact ih (setKey base p.1 p.2) hnd2 htail

theorem hasKey_of_lookupRec_some {r : Record} {k w : Str}
    (h : lookupRec r k = some w) : hasKey r k = true := by
  cases hk : hasKey r k with
  | true => rfl
  | false => rw [lookupRec_eq_none_of_hasKey_false hk] at h; cases h

theorem map_overwrite_id {k w : Str} :
    ∀ (r : Record), NodupKeys r → lookupRec r k = some w →
      r.map (fun p => if p.1 == k then (k, w) else p) = r := by
  intro r
  induction r with
  | nil => intro _ _; rfl
  | cons p r ih =>
    intro hnd hl
    unfold NodupKeys at hnd
    simp only [List.map_cons, List.nodup_cons] at hnd
    by_cases hpk : p.1 = k
    · have hb : (p.1 == k) = true := beq_iff_eq.mpr hpk
      have hw : p.2 = w := by
        simp [lookupRec, List.find?_cons, hb] at hl
        exact hl
      have hmapid : r.map (fun q => if q.1 == k then (k, w) else q) = r := by
        have h2 : ∀ q ∈ r, (if q.1 == k then (k, w) else q) = id q := by
          intro q hq
          have hqk : ¬(q.1 = k) := by
            intro hqk2
            exact hnd.1 (hpk ▸ hqk2 ▸ List.mem_map.mpr ⟨q, hq, rfl⟩)
          simp [hqk]
        rw [List.map_congr_left h2, List.map_id]
      simp only [List.map_cons, hb, if_true, hmapid]
      congr 1
      rw [← hw, ← hpk]
    · have hb : (p.1 == k) = false := by simp [hpk]
      have hl2 : lookupRec r k = some w := by
        simpa [lookupRec, List.find?_cons, hb] using hl
      simp only [List.map_cons, hb, Bool.false_eq_true, if_false]
      rw [ih hnd.2 hl2]

theorem setKey_id_of_lookup {r : Record} {k w : Str} (hnd : NodupKeys r)
    (h : lookupRec r k = some w) : setKey r k w = r := by
  simp only [setKey, hasKey_of_lookupRec_some h, if_true]
  exact map_overwrite_id r hnd h

theorem spread_absorb_of_lookup :
    ∀ (ext base : Record), NodupKeys base →
      (∀ p ∈ ext, lookupRec base p.1 = some p.2) →
      spread base ext = base := by
  intro ext
  induction ext with
  | nil => intro base _ _; rfl
  | cons p ext ih =>
    intro base hnd h
    rw [spread_cons,
      setKey_id_of_lookup hnd (h p (List.mem_cons_self p ext))]
    exact ih base hnd (fun q hq => h q (List.mem_cons_of_mem p hq))

theorem spread_spread_absorb {base v : Record} (hb : NodupKeys base)
    (hv : NodupKeys v) : spread (spread base v) v = spread base v := by
  apply spread_absorb_of_lookup v (spread base v) (nodupKeys_spread v hb)
  intro p hp
  exact lookupRec_spread_mem v base hv (by simpa using hp)

/-! ## Trim, split and join lemmas. -/

theorem isJsWs_eq_false : isJsWs '=' = false := by decide

theorem trimL_cons_false {c : Char} {cs : Str} (h : isJsWs c = false) :
    trimL (c :: cs) = c :: cs := by
  simp [trimL, List.dropWhile_cons, h]

theorem trimR_getLast_false {s : Str} {c : Char} (h1 : s.getLast? = some c)
    (h2 : isJsWs c = false) : trimR s = s := by
  rw [List.getLast?_eq_head?_reverse] at h1
  cases hrev : s.reverse with
  | nil => rw [hrev] at h1; cases h1
  | cons d ds =>
    rw [hrev] at h1
    have hdc : d = c := by
      simpa using h1
    subst hdc
    simp only [trimR, hrev, List.dropWhile_cons, h2, Bool.false_eq_true,
      if_false]
    rw [← hrev, List.reverse_reverse]

theorem trimmedB_nonempty {c : Char} {cs : Str}
    (h : trimmedB (c :: cs) = true) :
    isJsWs c = false ∧
    ∃ d, (c :: cs).getLast? = some d ∧ isJsWs d = false := by
  simp only [trimmedB, List.head?_cons, Bool.and_eq_true, Bool.not_eq_true'] at h
  obtain ⟨h1, h2⟩ := h
  refine ⟨h1, ?_⟩
  cases hl : (c :: cs).getLast? with
  | none => simp at hl
  | some d =>
    rw [hl] at h2
    exact ⟨d, rfl, by simpa using h2⟩

theorem trim_eq_self_of_trimmedB {s : Str} (h : trimmedB s = true) :
    trim s = s := by
  cases s with
  | nil => rfl
  | cons c cs =>
    obtain ⟨h1, d, hd, hdws⟩ := trimmedB_nonempty h
    unfold trim
    rw [trimL_cons_false h1]
    exact trimR_getLast_false hd hdws

theorem trimL_decomp (s : Str) :
    s = s.takeWhile isJsWs ++ trimL s :=
  (List.takeWhile_append_dropWhile isJsWs s).symm

theorem trimR_decomp (s : Str) :
    s = trimR s ++ (s.reverse.takeWhile isJsWs).reverse := by
  conv_lhs => rw [← List.reverse_reverse s]
  conv_lhs => rw [← List.takeWhile_append_dropWhile isJsWs s.reverse]
  rw [List.reverse_append]
  rfl

theorem trim_decomp (s : Str) :
    ∃ a b, s = a ++ trim s ++ b ∧ (∀ c ∈ a, isJsWs c = true) ∧
      (∀ c ∈ b, isJsWs c = true) := by
  refine ⟨s.takeWhile isJsWs, ((trimL s).reverse.takeWhile isJsWs).reverse,
    ?_, ?_, ?_⟩
  · conv_lhs => rw [trimL_decomp s]
    rw [List.append_assoc]
    congr 1
    exact trimR_decomp (trimL s)
  · intro c hc; exact List.mem_takeWhile_imp hc
  · intro c hc
    rw [List.mem_reverse] at hc
    exact List.mem_takeWhile_imp hc

theorem trim_ws_append {a x : Str} (h : ∀ c ∈ a, isJsWs c = true) :
    trim (a ++ x) = trim x := by
  unfold trim trimL
  rw [List.dropWhile_append_of_pos h]

theorem trimR_append_ws {x b : Str} (h : ∀ c ∈ b, isJsWs c = true) :
    trimR (x ++ b) = trimR x := by
  unfold trimR
  rw [List.reverse_append,
    List.dropWhile_append_of_pos (fun c hc => h c (List.mem_reverse.mp hc))]

theorem trim_append_ws {x b : Str} (h : ∀ c ∈ b, isJsWs c = true) :
    trim (x ++ b) = trim x := by
  unfold trim trimL
  rw [List.dropWhile_append]
  by_cases hx : (x.dropWhile isJsWs).isEmpty
  · have hxe : x.dropWhile isJsWs = [] := by
      simpa [List.isEmpty_iff] using hx
    have hb : b.dropWhile isJsWs = [] := List.dropWhile_eq_nil_iff.mpr h
    rw [if_pos hx, hb, hxe]
  · rw [if_neg hx]
    exact trimR_append_ws h

/-! ## firstEqSplit and line-splitting lemmas. -/

theorem fes_eq_none_iff : ∀ (s : Str), firstEqSplit s = none ↔ '=' ∉ s := by
  intro s
  induction s with
  | nil => simp [firstEqSplit]
  | cons c cs ih =>
    by_cases hc : c = '='
    · subst hc; simp [firstEqSplit]
    · simp only [firstEqSplit, if_neg hc, List.mem_cons]
      cases hfes : firstEqSplit cs with
      | none =>
        have hni := ih.mp hfes
        simp only [Option.map_none']
        constructor
        · intro _ hm
          rcases hm with hm | hm
          · exact hc hm.symm
          · exact hni hm
        · intro _; trivial
      | some kv =>
        have hmem : '=' ∈ cs := by
          by_contra hnc
          rw [ih.mpr hnc] at hfes; cases hfes
        simp only [Option.map_some']
        constructor
        · intro hcontra; cases hcontra
        · intro hni; exact absurd (Or.inr hmem) hni

theorem fes_append {a : Str} (b : Str) (h : '=' ∉ a) :
    firstEqSplit (a ++ '=' :: b) = some (a, b) := by
  induction a with
  | nil => simp [firstEqSplit]
  | cons c a ih =>
    have hc : ¬(c = '=') := fun hc => h (hc ▸ List.mem_cons_self c a)
    have ha : '=' ∉ a := fun hm => h (List.mem_cons_of_mem c hm)
    rw [List.cons_append]
    show (if c = '=' then some (([] : Str), a ++ '=' :: b)
      else (firstEqSplit (a ++ '=' :: b)).map (fun p => (c :: p.1, p.2)))
      = some (c :: a, b)
    rw [if_neg hc, ih ha]
    rfl

theorem fes_sound : ∀ {s k v : Str}, firstEqSplit s = some (k, v) →
    s = k ++ '=' :: v ∧ '=' ∉ k := by
  intro s
  induction s with
  | nil => intro k v h; cases h
  | cons c cs ih =>
    intro k v h
    by_cases hc : c = '='
    · subst hc
      have h2 : some (([] : Str), cs) = some (k, v) := by
        rw [← h]; simp [firstEqSplit]
      have h3 := Option.some_inj.mp h2
      have hk : k = [] := (congrArg Prod.fst h3).symm
      have hv : v = cs := (congrArg Prod.snd h3).symm
      subst hk; subst hv
      exact ⟨rfl, by simp⟩
    · simp only [firstEqSplit, if_neg hc] at h
      cases hfes : firstEqSplit cs with
      | none => rw [hfes] at h; cases h
      | some kv =>
        obtain ⟨k2, v2⟩ := kv
        rw [hfes] at h
        simp only [Option.map_some', Option.some_inj] at h
        have hk : c :: k2 = k := congrArg Prod.fst h
        have hv : v2 = v := congrArg Prod.snd h
        subst hk; subst hv
        obtain ⟨hs, hnk⟩ := ih hfes
        constructor
        · rw [List.cons_append, ← hs]
        · intro hm
          rcases List.mem_cons.mp hm with hm | hm
          · exact hc hm.symm
          · exact hnk hm

theorem splitLinesJs_ne_nil (s : Str) : splitLinesJs s ≠ [] := by
  induction s with
  | nil => simp [splitLinesJs]
  | cons c cs ih =>
    unfold splitLinesJs
    by_cases hc : c = '\n'
    · simp [hc]
    · rw [if_neg hc]
      cases h : splitLinesJs cs with
      | nil => simp [consHead]
      | cons hd tl => simp [consHead]

theorem splitLinesJs_no_newline {l : Str} (h : '\n' ∉ l) :
    splitLinesJs l = [l] := by
  induction l with
  | nil => rfl
  | cons c cs ih =>
    have hc : ¬(c = '\n') := fun hc => h (hc ▸ List.mem_cons_self c cs)
    have hcs : '\n' ∉ cs := fun hm => h (List.mem_cons_of_mem c hm)
    unfold splitLinesJs
    rw [if_neg hc, ih hcs]
    rfl

theorem splitLinesJs_append {l : Str} (rest : Str) (h : '\n' ∉ l) :
    splitLinesJs (l ++ '\n' :: rest) = l :: splitLinesJs rest := by
  induction l with
  | nil => simp [splitLinesJs]
  | cons c cs ih =>
    have hc : ¬(c = '\n') := fun hc => h (hc ▸ List.mem_cons_self c cs)
    have hcs : '\n' ∉ cs := fun hm => h (List.mem_cons_of_mem c hm)
    rw [List.cons_append]
    show (if c = '\n' then [] :: splitLinesJs (cs ++ '\n' :: rest)
      else consHead c (splitLinesJs (cs ++ '\n' :: rest)))
      = (c :: cs) :: splitLinesJs rest
    rw [if_neg hc, ih hcs]
    rfl

theorem splitLinesJs_joinLines : ∀ {L : List Str}, L ≠ [] →
    (∀ l ∈ L, '\n' ∉ l) → splitLinesJs (joinLines L) = L := by
  intro L
  induction L with
  | nil => intro h _; exact absurd rfl h
  | cons l L ih =>
    intro _ h
    cases L with
    | nil =>
      simp only [joinLines]
      exact splitLinesJs_no_newline (h l (List.mem_cons_self l []))
    | cons l2 L2 =>
      have hjoin : joinLines (l :: l2 :: L2) = l ++ '\n' :: joinLines (l2 :: L2) := rfl
      rw [hjoin, splitLinesJs_append _ (h l (List.mem_cons_self l _))]
      rw [ih (by simp) (fun x hx => h x (List.mem_cons_of_mem l hx))]

/-! ## Quote-stripping lemmas. -/

theorem jsSubstring_singleton (c : Char) : jsSubstring [c] 1 0 = [c] := rfl

theorem jsSubstring_inner (c d : Char) (ds : Str) :
    jsSubstring (c :: d :: ds) 1 ((c :: d :: ds).length - 1)
      = (d :: ds).dropLast := by
  simp only [jsSubstring, List.length_cons]
  have h1 : min 1 (ds.length + 1 + 1) = 1 := by omega
  have h2 : min (ds.length + 1 + 1 - 1) (ds.length + 1 + 1)
      = ds.length + 1 := by omega
  rw [h1, h2]
  have h3 : min 1 (ds.length + 1) = 1 := by omega
  have h4 : max 1 (ds.length + 1) = ds.length + 1 := by omega
  rw [h3, h4]
  rw [List.dropLast_eq_take]
  simp

theorem getLast?_cons_cons_eq_getLastD (d : Char) (ds : Str) :
    (d :: ds).getLast? = some ((d :: ds).getLastD ' ') := by
  rw [List.getLastD_eq_getLast?]
  cases h : (d :: ds).getLast? with
  | none => simp at h
  | some x => rfl

theorem stripQuotesCore_eq_spec (v : Str) :
    stripQuotesCore v = stripQuotesSpec v := by
  match v with
  | [] => rfl
  | [c] =>
    show stripQuotesCore [c] = [c]
    unfold stripQuotesCore
    split
    · exact jsSubstring_singleton c
    · rfl
  | c :: d :: ds =>
    have hlast := getLast?_cons_cons_eq_getLastD d ds
    have hspec : stripQuotesSpec (c :: d :: ds)
        = if ((c == '"' && ((d :: ds).getLastD ' ') == '"') ||
              (c == '\'' && ((d :: ds).getLastD ' ') == '\'')) then
            (d :: ds).dropLast
          else c :: d :: ds := rfl
    rw [hspec]
    unfold stripQuotesCore
    rw [List.getLast?_cons_cons, hlast]
    have hcond :
        (((some c == some '"') && (some ((d :: ds).getLastD ' ') == some '"')) ||
         ((some c == some '\'') && (some ((d :: ds).getLastD ' ') == some '\'')))
        = ((c == '"' && ((d :: ds).getLastD ' ') == '"') ||
           (c == '\'' && ((d :: ds).getLastD ' ') == '\'')) := rfl
    rw [List.head?_cons, hcond]
    by_cases hcc : ((c == '"' && ((d :: ds).getLastD ' ') == '"') ||
           (c == '\'' && ((d :: ds).getLastD ' ') == '\'')) = true
    · rw [if_pos hcc, if_pos hcc]
      exact jsSubstring_inner c d ds
    · rw [if_neg hcc, if_neg hcc]

theorem quoteEnds_false_conds {c : Char} {d : Char} {ds : Str}
    (h : quoteEnds (c :: d :: ds) = false) :
    (isQuoteChar c && isQuoteChar ((d :: ds).getLastD ' ')) = false := by
  simpa [quoteEnds] using h

theorem spec_cond_false_of_not_quoteEnds {c : Char} {d : Char} {ds : Str}
    (h : quoteEnds (c :: d :: ds) = false) :
    ((c == '"' && ((d :: ds).getLastD ' ') == '"') ||
     (c == '\'' && ((d :: ds).getLastD ' ') == '\'')) = false := by
  have hq := quoteEnds_false_conds h
  by_cases hc : isQuoteChar c = true
  · have hl : isQuoteChar ((d :: ds).getLastD ' ') = false := by
      cases hw : isQuoteChar ((d :: ds).getLastD ' ') with
      | false => rfl
      | true => rw [hc, hw] at hq; cases hq
    have h1 : (((d :: ds).getLastD ' ') == '"') = false := by
      simp only [isQuoteChar, Bool.or_eq_false_iff] at hl
      simpa using hl.1
    have h2 : (((d :: ds).getLastD ' ') == '\'') = false := by
      simp only [isQuoteChar, Bool.or_eq_false_iff] at hl
      simpa using hl.2
    simp only [h1, h2, Bool.and_false, Bool.or_self]
  · have hc2 : isQuoteChar c = false := by
      cases hw : isQuoteChar c with
      | false => rfl
      | true => exact absurd hw hc
    have h1 : (c == '"') = false := by
      simp only [isQuoteChar, Bool.or_eq_false_iff] at hc2
      simpa using hc2.1
    have h2 : (c == '\'') = false := by
      simp only [isQuoteChar, Bool.or_eq_false_iff] at hc2
      simpa using hc2.2
    simp only [h1, h2, Bool.false_and, Bool.or_self]

theorem stripQuotesSpec_of_not_quoteEnds {v : Str}
    (h : quoteEnds v = false) : stripQuotesSpec v = v := by
  match v with
  | [] => rfl
  | [c] => rfl
  | c :: d :: ds =>
    have hspec : stripQuotesSpec (c :: d :: ds)
        = if ((c == '"' && ((d :: ds).getLastD ' ') == '"') ||
              (c == '\'' && ((d :: ds).getLastD ' ') == '\'')) then
            (d :: ds).dropLast
          else c :: d :: ds := rfl
    rw [hspec, spec_cond_false_of_not_quoteEnds h]
    simp

theorem stripQuotesCore_of_not_quoteEnds {v : Str}
    (h : quoteEnds v = false) : stripQuotesCore v = v := by
  rw [stripQuotesCore_eq_spec]
  exact stripQuotesSpec_of_not_quoteEnds h

theorem stripQuotesFU_of_not_quoteEnds {v : Str}
    (h : quoteEnds v = false) : stripQuotesFU v = v := by
  match v with
  | [] => rfl
  | [c] => rfl
  | c :: d :: ds =>
    have hfu : stripQuotesFU (c :: d :: ds)
        = if (isQuoteChar c && isQuoteChar ((d :: ds).getLastD ' ') &&
              !((d :: ds).dropLast.any isLineTermB)) then
            (d :: ds).dropLast
          else c :: d :: ds := rfl
    have hq := quoteEnds_false_conds h
    have hq2 : (isQuoteChar c && isQuoteChar ((d :: ds).getLastD ' ') &&
        !((d :: ds).dropLast.any isLineTermB)) = false := by
      simp only [hq, Bool.false_and]
    rw [hfu, hq2]
    simp

theorem stripQuotesFU_eq_spec_of_ok {v : Str}
    (hnl : ∀ x ∈ v, isLineTermB x = false)
    (hm : matchedQuotesOK v = true) :
    stripQuotesFU v = stripQuotesSpec v := by
  match v with
  | [] => rfl
  | [c] => rfl
  | c :: d :: ds =>
    have hmid : ((d :: ds).dropLast.any isLineTermB) = false := by
      apply List.any_eq_false.mpr
      intro x hx
      have hx2 : x ∈ c :: d :: ds :=
        List.mem_cons_of_mem c (List.dropLast_sublist (d :: ds) |>.subset hx)
      simp [hnl x hx2]
    by_cases hq : quoteEnds (c :: d :: ds) = true
    · have hqe : (isQuoteChar c && isQuoteChar ((d :: ds).getLastD ' '))
          = true := by simpa [quoteEnds] using hq
      have hmatch :
          ((c == '"' && ((d :: ds).getLastD ' ') == '"') ||
           (c == '\'' && ((d :: ds).getLastD ' ') == '\'')) = true := by
        have hmm : (!(isQuoteChar c && isQuoteChar ((d :: ds).getLastD ' ')) ||
            ((c == '"' && ((d :: ds).getLastD ' ') == '"') ||
             (c == '\'' && ((d :: ds).getLastD ' ') == '\''))) = true := hm
        rw [hqe] at hmm
        simpa using hmm
      have hfu : stripQuotesFU (c :: d :: ds)
          = if (isQuoteChar c && isQuoteChar ((d :: ds).getLastD ' ') &&
                !((d :: ds).dropLast.any isLineTermB)) then
              (d :: ds).dropLast
            else c :: d :: ds := rfl
      have hspec : stripQuotesSpec (c :: d :: ds)
          = if ((c == '"' && ((d :: ds).getLastD ' ') == '"') ||
                (c == '\'' && ((d :: ds).getLastD ' ') == '\'')) then
              (d :: ds).dropLast
            else c :: d :: ds := rfl
      rw [hfu, hspec, hqe, hmid, hmatch]
      simp
    · have hq2 : quoteEnds (c :: d :: ds) = false := by
        cases hw : quoteEnds (c :: d :: ds) with
        | false => rfl
        | true => exact absurd hw hq
      rw [stripQuotesFU_of_not_quoteEnds hq2,
        stripQuotesSpec_of_not_quoteEnds hq2]

/-! ## Good-pair elimination and per-line lemmas. -/

theorem goodKey_parts {k : Str} (h : goodKey k = true) :
    k.isEmpty = false ∧ (∀ c ∈ k, ¬(c = '=') ∧ isQuoteChar c = false ∧
      isLineTermB c = false) ∧ trimmedB k = true ∧
      (k.head? == some '#') = false := by
  simp only [goodKey, Bool.and_eq_true, Bool.not_eq_true',
    List.all_eq_true, Bool.or_eq_false_iff, decide_eq_false_iff_not] at h
  exact ⟨h.1.1.1,
    fun c hc => ⟨(h.1.1.2 c hc).1.1, (h.1.1.2 c hc).1.2, (h.1.1.2 c hc).2⟩,
    h.1.2, h.2⟩

theorem goodVal_parts {v : Str} (h : goodVal v = true) :
    (∀ c ∈ v, isLineTermB c = false) ∧ trimmedB v = true ∧
      quoteEnds v = false := by
  simp only [goodVal, Bool.and_eq_true, Bool.not_eq_true',
    List.all_eq_true] at h
  exact ⟨h.1.1, h.1.2, h.2⟩

theorem trim_keyval {k v : Str} (hk1 : k.isEmpty = false)
    (hk2 : trimmedB k = true) (hv : trimmedB v = true) :
    trim (k ++ '=' :: v) = k ++ '=' :: v := by
  cases k with
  | nil => simp at hk1
  | cons kc ks =>
    obtain ⟨hkws, _⟩ := trimmedB_nonempty hk2
    unfold trim
    rw [List.cons_append, trimL_cons_false hkws]
    cases v with
    | nil =>
      have hlast : ((kc :: ks) ++ ['=']).getLast? = some '=' :=
        List.getLast?_concat _
      rw [← List.cons_append]
      exact trimR_getLast_false hlast isJsWs_eq_false
    | cons vc vs =>
      obtain ⟨_, d, hd, hdws⟩ := trimmedB_nonempty hv
      have hlast : ((kc :: ks) ++ '=' :: vc :: vs).getLast? = some d := by
        rw [List.getLast?_append]
        have h2 : ('=' :: vc :: vs).getLast? = some d := by
          rw [List.getLast?_cons_cons]
          exact hd
        rw [h2]
        rfl
      rw [← List.cons_append]
      exact trimR_getLast_false hlast hdws

theorem parseLineFU_keyval (acc : Record) {k v : Str}
    (hk : goodKey k = true) (hv : goodVal v = true) :
    parseLineFU acc (k ++ '=' :: v) = setKey acc k v := by
  obtain ⟨hk1, hk2, hk3, hk4⟩ := goodKey_parts hk
  obtain ⟨hv1, hv2, hv3⟩ := goodVal_parts hv
  have htr : trim (k ++ '=' :: v) = k ++ '=' :: v := trim_keyval hk1 hk3 hv2
  have hne : '=' ∉ k := fun hm => (hk2 '=' hm).1 rfl
  have htk : trim k = k := trim_eq_self_of_trimmedB hk3
  have htv : trim v = v := trim_eq_self_of_trimmedB hv2
  unfold parseLineFU
  rw [htr]
  have hie : (k ++ '=' :: v).isEmpty = false := by
    cases k with
    | nil => simp at hk1
    | cons kc ks => rfl
  have hhd : ((k ++ '=' :: v).head? == some '#') = false := by
    cases k with
    | nil => simp at hk1
    | cons kc ks =>
      simpa using hk4
  rw [hie, hhd]
  simp only [Bool.or_self, Bool.false_eq_true, if_false]
  rw [fes_append v hne]
  have hva : (v.any isLineTermB) = false :=
    List.any_eq_false.mpr (fun c hc => by simp [hv1 c hc])
  show (if (k.isEmpty || v.any isLineTermB) = true then acc
    else setKey acc (trim k) (stripQuotesFU (trim v))) = setKey acc k v
  rw [hk1, hva]
  simp only [Bool.or_self, Bool.false_eq_true, if_false]
  rw [htk, htv, stripQuotesFU_of_not_quoteEnds hv3]

theorem parseLineCore_keyval (acc : Record) {k v : Str}
    (hk : goodKey k = true) (hv : goodVal v = true) :
    parseLineCore acc (k ++ '=' :: v) = setKey acc k v := by
  obtain ⟨hk1, hk2, hk3, hk4⟩ := goodKey_parts hk
  obtain ⟨hv1, hv2, hv3⟩ := goodVal_parts hv
  have htr : trim (k ++ '=' :: v) = k ++ '=' :: v := trim_keyval hk1 hk3 hv2
  have hne : '=' ∉ k := fun hm => (hk2 '=' hm).1 rfl
  have htk : trim k = k := trim_eq_self_of_trimmedB hk3
  have htv : trim v = v := trim_eq_self_of_trimmedB hv2
  unfold parseLineCore
  rw [htr]
  have hie : (k ++ '=' :: v).isEmpty = false := by
    cases k with
    | nil => simp at hk1
    | cons kc ks => rfl
  have hhd : ((k ++ '=' :: v).head? == some '#') = false := by
    cases k with
    | nil => simp at hk1
    | cons kc ks =>
      simpa using hk4
  rw [hie, hhd]
  simp only [Bool.or_self, Bool.false_eq_true, if_false]
  rw [fes_append v hne]
  show (if k.isEmpty = true then acc
    else setKey acc (trim k) (stripQuotesCore (trim v))) = setKey acc k v
  rw [hk1]
  simp only [Bool.false_eq_true, if_false]
  rw [htk, htv, stripQuotesCore_of_not_quoteEnds hv3]

/-! ## Parse output key uniqueness and the round-trip law. -/

theorem parseLineFU_cases (acc : Record) (l : Str) :
    parseLineFU acc l = acc ∨ ∃ k v, parseLineFU acc l = setKey acc k v := by
  unfold parseLineFU
  split
  · exact Or.inl rfl
  · split
    · exact Or.inl rfl
    · split
      · exact Or.inl rfl
      · exact Or.inr ⟨_, _, rfl⟩

theorem parseLineCore_cases (acc : Record) (l : Str) :
    parseLineCore acc l = acc ∨
      ∃ k v, parseLineCore acc l = setKey acc k v := by
  unfold parseLineCore
  split
  · exact Or.inl rfl
  · split
    · exact Or.inl rfl
    · split
      · exact Or.inl rfl
      · exact Or.inr ⟨_, _, rfl⟩

theorem nodupKeys_foldl_parseLine (f : Record → Str → Record)
    (hf : ∀ acc l, f acc l = acc ∨ ∃ k v, f acc l = setKey acc k v) :
    ∀ (lines : List Str) (acc : Record), NodupKeys acc →
      NodupKeys (lines.foldl f acc) := by
  intro lines
  induction lines with
  | nil => intro acc h; exact h
  | cons l lines ih =>
    intro acc h
    rw [List.foldl_cons]
    rcases hf acc l with hc | ⟨k, v, hc⟩
    · rw [hc]; exact ih acc h
    · rw [hc]; exact ih _ (nodupKeys_setKey h)

theorem nodupKeys_parseEnvFileFU (content : Str) :
    NodupKeys (parseEnvFileFU content) :=
  nodupKeys_foldl_parseLine parseLineFU parseLineFU_cases
    (splitLinesJs content) [] (by simp [NodupKeys])

theorem nodupKeys_parseEnvFileCore (content : Str) :
    NodupKeys (parseEnvFileCore content) :=
  nodupKeys_foldl_parseLine parseLineCore parseLineCore_cases
    (splitLinesJs content) [] (by simp [NodupKeys])

theorem goodRecord_cons {p : Str × Str} {r : Record}
    (h : goodRecord (p :: r) = true) :
    goodKey p.1 = true ∧ goodVal p.2 = true ∧ goodRecord r = true := by
  simp only [goodRecord, List.all_cons, Bool.and_eq_true] at h
  refine ⟨h.1.1, h.1.2, ?_⟩
  simp only [goodRecord, List.all_eq_true]
  exact fun q hq => (List.all_eq_true.mp h.2) q hq

theorem line_no_newline {k v : Str} (hk : goodKey k = true)
    (hv : goodVal v = true) : '\n' ∉ k ++ '=' :: v := by
  intro hm
  rcases List.mem_append.mp hm with hm | hm
  · have h2 := ((goodKey_parts hk).2.1 '\n' hm).2.2
    simp [isLineTermB] at h2
  · rcases List.mem_cons.mp hm with hm | hm
    · cases hm
    · have := (goodVal_parts hv).1 '\n' hm
      simp [isLineTermB] at this

theorem foldl_parseLine_append (f : Record → Str → Record)
    (hf : ∀ acc (k v : Str), goodKey k = true → goodVal v = true →
      f acc (k ++ '=' :: v) = setKey acc k v) :
    ∀ (r acc : Record), goodRecord r = true → NodupKeys r →
      (∀ p ∈ r, hasKey acc p.1 = false) →
      (r.map (fun p => p.1 ++ '=' :: p.2)).foldl f acc = acc ++ r := by
  intro r
  induction r with
  | nil => intro acc _ _ _; simp
  | cons p r ih =>
    intro acc hg hnd hdisj
    obtain ⟨k, v⟩ := p
    obtain ⟨hgk, hgv, hgr⟩ := goodRecord_cons hg
    have hndr : NodupKeys r := by
      unfold NodupKeys at *
      exact (List.nodup_cons.mp (by simpa using hnd)).2
    have hknotin : k ∉ r.map Prod.fst := by
      unfold NodupKeys at hnd
      exact (List.nodup_cons.mp (by simpa using hnd)).1
    rw [List.map_cons, List.foldl_cons, hf acc k v hgk hgv,
      setKey_of_hasKey_false (hdisj (k, v) (List.mem_cons_self _ _))]
    rw [ih (acc ++ [(k, v)]) hgr hndr ?_]
    · rw [List.append_assoc]
      rfl
    · intro q hq
      have hq1 : hasKey acc q.1 = false :=
        hdisj q (List.mem_cons_of_mem _ hq)
      apply List.any_eq_false.mpr
      intro x hx
      rcases List.mem_append.mp hx with hx | hx
      · exact (List.any_eq_false.mp hq1) x hx
      · simp only [List.mem_singleton] at hx
        subst hx
        intro hb
        have hkq : k = q.1 := beq_iff_eq.mp hb
        exact hknotin (by rw [hkq]; exact List.mem_map.mpr ⟨q, hq, rfl⟩)

theorem goodRecord_mem {r : Record} {q : Str × Str}
    (hg : goodRecord r = true) (hq : q ∈ r) :
    goodKey q.1 = true ∧ goodVal q.2 = true := by
  have h2 : (goodKey q.1 && goodVal q.2) = true :=
    List.all_eq_true.mp hg q hq
  simpa using h2

theorem parse_stringify_FU {r : Record} (hg : goodRecord r = true)
    (hnd : NodupKeys r) : parseEnvFileFU (stringifyEnvFile r) = r := by
  cases r with
  | nil => rfl
  | cons p r2 =>
    unfold parseEnvFileFU stringifyEnvFile
    rw [splitLinesJs_joinLines (by simp) (fun l hl => by
      rcases List.mem_map.mp hl with ⟨q, hq, rfl⟩
      obtain ⟨hqk, hqv⟩ := goodRecord_mem hg hq
      exact line_no_newline hqk hqv)]
    have hfold := foldl_parseLine_append parseLineFU
      (fun acc k v hk hv => parseLineFU_keyval acc hk hv)
      (p :: r2) [] hg hnd (fun q _ => rfl)
    simpa using hfold

theorem parse_stringify_Core {r : Record} (hg : goodRecord r = true)
    (hnd : NodupKeys r) : parseEnvFileCore (stringifyEnvFile r) = r := by
  cases r with
  | nil => rfl
  | cons p r2 =>
    unfold parseEnvFileCore stringifyEnvFile
    rw [splitLinesJs_joinLines (by simp) (fun l hl => by
      rcases List.mem_map.mp hl with ⟨q, hq, rfl⟩
      obtain ⟨hqk, hqv⟩ := goodRecord_mem hg hq
      exact line_no_newline hqk hqv)]
    have hfold := foldl_parseLine_append parseLineCore
      (fun acc k v hk hv => parseLineCore_keyval acc hk hv)
      (p :: r2) [] hg hnd (fun q _ => rfl)
    simpa using hfold

theorem persistedRecord_overwrite (fs : Fs) (target : Str) (c : Str)
    (newVars : Record) :
    persistedRecord (fun f => if f == target then some c else fs f)
        target newVars
      = spread (parseEnvFileFU c) newVars := by
  unfold persistedRecord readEnvFile
  simp

/-- Claim C7 counterexample: the mapping `{A: " b"}` satisfies the claim's
hypotheses (key quote-free, `'='`-free and non-empty; value `'='`-free and
single-line), yet parsing its serialization trims the value to `"b"`, so
`parse(serialize(m)) ≠ m`. -/
theorem c7_round_trip_counterexample :
    parseEnvFileCore (stringifyEnvFile [(str "A", str " b")])
      ≠ [(str "A", str " b")] := by
  decide

/-- Claim C7 as amended: `parse(serialize(m)) = m` for every mapping with
distinct keys whose keys are non-empty, quote-free, `'='`-free,
line-terminator-free, trimmed and not starting with `'#'`, and whose
values are line-terminator-free, trimmed, and not both starting and
ending with a quote character. -/
theorem c7_round_trip (m : Record) (hnd : NodupKeys m)
    (hg : goodRecord m = true) :
    parseEnvFileCore (stringifyEnvFile m) = m :=
  parse_stringify_Core hg hnd

/-- Witness for C7 on a concrete two-entry mapping. -/
theorem c7_round_trip_witness :
    parseEnvFileCore (stringifyEnvFile
        [(str "FOO", str "1"), (str "BAR", str "2")])
      = [(str "FOO", str "1"), (str "BAR", str "2")] :=
  c7_round_trip [(str "FOO", str "1"), (str "BAR", str "2")]
    (by unfold NodupKeys; decide) (by decide)

/-- Claim C5 counterexample: persisting `{FOO: "\"\""}` to an absent file
writes `FOO=""`, whose parsed form is `{FOO: ""}`, not the merged record
`{FOO: "\"\""}`: serialization never re-quotes, so a quote-wrapped value
does not survive the round trip. -/
theorem c5_persist_counterexample :
    (updateEnvFile [(str "FOO", str "\"\"")] fsEmpty (str ".env.local")
        none).2 (str ".env.local") = some (str "FOO=\"\"")
    ∧ parseEnvFileFU (str "FOO=\"\"")
      ≠ persistedRecord fsEmpty (str ".env.local")
          [(str "FOO", str "\"\"")] := by
  refine ⟨rfl, by decide⟩

/-- Claim C5 as amended: when every key/value pair of the merged record
`{ ...existing, ...newValues }` is round-trip safe (keys non-empty,
quote-free, `'='`-free, line-terminator-free, trimmed, not starting with
`'#'`; values line-terminator-free, trimmed, not quote-wrapped), the
persist operation writes exactly the serialization of that merged record,
and the written file parses back to it — new values win on collisions and
existing keys keep their values. -/
theorem c5_persist_parses_to_merge (fs : Fs) (target : Str)
    (newVars : Record)
    (h : goodRecord (persistedRecord fs target newVars) = true) :
    (updateEnvFile newVars fs target none).2 target
      = some (stringifyEnvFile (persistedRecord fs target newVars))
    ∧ parseEnvFileFU (stringifyEnvFile (persistedRecord fs target newVars))
      = persistedRecord fs target newVars := by
  constructor
  · show (fun f => if f == target then
        some (stringifyEnvFile (persistedRecord fs target newVars))
      else fs f) target = _
    simp
  · have hndE : NodupKeys
        (if (fs target).isSome then readEnvFile fs target else []) := by
      by_cases hfs : (fs target).isSome
      · rw [if_pos hfs]
        unfold readEnvFile
        cases hc : fs target with
        | none => rw [hc] at hfs; simp at hfs
        | some c => simp only [hc]; exact nodupKeys_parseEnvFileFU c
      · rw [if_neg hfs]; simp [NodupKeys]
    exact parse_stringify_FU h (nodupKeys_spread _ hndE)

/-- Witness for C5: persisting `{FOO: "1"}` over a file containing
`FOO=0` and `BAR=2` writes a file parsing to `{FOO: "1", BAR: "2"}`. -/
theorem c5_persist_parses_to_merge_witness :
    (updateEnvFile [(str "FOO", str "1")] c5Fs (str ".env.local") none).2
        (str ".env.local")
      = some (stringifyEnvFile
          (persistedRecord c5Fs (str ".env.local") [(str "FOO", str "1")]))
    ∧ parseEnvFileFU (stringifyEnvFile
        (persistedRecord c5Fs (str ".env.local") [(str "FOO", str "1")]))
      = persistedRecord c5Fs (str ".env.local") [(str "FOO", str "1")] :=
  c5_persist_parses_to_merge c5Fs (str ".env.local")
    [(str "FOO", str "1")] (by decide)

/-- Claim C8 counterexample: with `.env` containing `A=""""` (parsed value
`""`, still quote-wrapped), persisting `{B: "1"}` once writes
`A=""` and `B=1`, but persisting it a second time strips the quotes again
and writes `A=` — the two file contents differ. -/
theorem c8_idempotence_counterexample :
    (updateEnvFile [(str "B", str "1")]
        (updateEnvFile [(str "B", str "1")] c8Fs (str ".env") none).2
        (str ".env") none).2 (str ".env")
      ≠ (updateEnvFile [(str "B", str "1")] c8Fs (str ".env") none).2
          (str ".env") := by
  decide

/-- Claim C8 as amended: when every pair of the merged record
`{ ...existing, ...values }` is round-trip safe and the new values have
distinct keys, persisting the same values twice in succession leaves the
file system in exactly the state of persisting them once. -/
theorem c8_persist_idempotent (fs : Fs) (target : Str) (newVars : Record)
    (hg : goodRecord (persistedRecord fs target newVars) = true)
    (hnv : NodupKeys newVars) :
    (updateEnvFile newVars (updateEnvFile newVars fs target none).2
        target none).2
      = (updateEnvFile newVars fs target none).2 := by
  have hndE : NodupKeys
      (if (fs target).isSome then readEnvFile fs target else []) := by
    by_cases hfs : (fs target).isSome
    · rw [if_pos hfs]
      unfold readEnvFile
      cases hc : fs target with
      | none => rw [hc] at hfs; simp at hfs
      | some c => simp only [hc]; exact nodupKeys_parseEnvFileFU c
    · rw [if_neg hfs]; simp [NodupKeys]
  have hndr : NodupKeys (persistedRecord fs target newVars) :=
    nodupKeys_spread _ hndE
  have hround : parseEnvFileFU
      (stringifyEnvFile (persistedRecord fs target newVars))
      = persistedRecord fs target newVars := parse_stringify_FU hg hndr
  have hfs1 : (updateEnvFile newVars fs target none).2
      = fun f => if f == target then
          some (stringifyEnvFile (persistedRecord fs target newVars))
        else fs f := rfl
  rw [hfs1]
  have hpr : persistedRecord
      (fun f => if f == target then
        some (stringifyEnvFile (persistedRecord fs target newVars))
      else fs f) target newVars = persistedRecord fs target newVars := by
    rw [persistedRecord_overwrite, hround]
    exact spread_spread_absorb hndE hnv
  have hstep : (updateEnvFile newVars
      (fun f => if f == target then
        some (stringifyEnvFile (persistedRecord fs target newVars))
      else fs f) target none).2
      = fun f => if f == target then
          some (stringifyEnvFile (persistedRecord
            (fun g => if g == target then
              some (stringifyEnvFile (persistedRecord fs target newVars))
            else fs g) target newVars))
        else (if f == target then
          some (stringifyEnvFile (persistedRecord fs target newVars))
        else fs f) := rfl
  rw [hstep, hpr]
  funext f
  by_cases hb : (f == target) = true
  · simp only [hb, if_true]
  · simp only [hb, Bool.false_eq_true, if_false]

/-- Witness for C8: persisting `{FOO: "1"}` twice into an empty directory
equals persisting it once. -/
theorem c8_persist_idempotent_witness :
    (updateEnvFile [(str "FOO", str "1")]
        (updateEnvFile [(str "FOO", str "1")] fsEmpty (str ".env") none).2
        (str ".env") none).2
      = (updateEnvFile [(str "FOO", str "1")] fsEmpty (str ".env") none).2 :=
  c8_persist_idempotent fsEmpty (str ".env") [(str "FOO", str "1")]
    (by decide) (by unfold NodupKeys; decide)

/-! ## C6: the parsers against the reference algorithm. -/

theorem mem_trimR {x : Char} {s : Str} (h : x ∈ trimR s) : x ∈ s := by
  unfold trimR at h
  rw [List.mem_reverse] at h
  have h2 := (List.dropWhile_sublist isJsWs).subset h
  exact List.mem_reverse.mp h2

theorem mem_trim {x : Char} {s : Str} (h : x ∈ trim s) : x ∈ s := by
  unfold trim at h
  have h2 := mem_trimR h
  unfold trimL at h2
  exact (List.dropWhile_sublist isJsWs).subset h2

theorem foldl_congr_on {α : Type} (f g : Record → α → Record)
    (P : α → Bool) (h : ∀ acc x, P x = true → f acc x = g acc x) :
    ∀ (l : List α) (acc : Record), (∀ x ∈ l, P x = true) →
      l.foldl f acc = l.foldl g acc := by
  intro l
  induction l with
  | nil => intro acc _; rfl
  | cons x l ih =>
    intro acc hP
    rw [List.foldl_cons, List.foldl_cons,
      h acc x (hP x (List.mem_cons_self x l))]
    exact ih _ (fun y hy => hP y (List.mem_cons_of_mem x hy))

theorem lineOK_parts {l k0 v0 : Str}
    (h : lineOK l = true)
    (hskip : ((trim l).isEmpty || ((trim l).head? == some '#')) = false)
    (hfes : firstEqSplit (trim l) = some (k0, v0)) :
    k0.isEmpty = false ∧ (v0.any isLineTermB) = false ∧
      matchedQuotesOK (trim v0) = true := by
  unfold lineOK at h
  rw [hskip] at h
  simp only [Bool.false_eq_true, if_false] at h
  rw [hfes] at h
  have h2 : (!k0.isEmpty && !(v0.any isLineTermB) &&
      matchedQuotesOK (trim v0)) = true := h
  simp only [Bool.and_eq_true, Bool.not_eq_true'] at h2
  exact ⟨h2.1.1, h2.1.2, h2.2⟩

theorem parseLineFU_eq_spec (acc : Record) (l : Str)
    (h : lineOK l = true) : parseLineFU acc l = parseLineSpec acc l := by
  unfold parseLineFU parseLineSpec
  by_cases h1 : ((trim l).isEmpty || ((trim l).head? == some '#')) = true
  · rw [if_pos h1, if_pos h1]
  · have h1f : ((trim l).isEmpty || ((trim l).head? == some '#')) = false :=
      by cases hw : ((trim l).isEmpty || ((trim l).head? == some '#')) with
         | false => rfl
         | true => exact absurd hw h1
    rw [if_neg h1, if_neg h1]
    cases hfes : firstEqSplit (trim l) with
    | none => rfl
    | some kv =>
      obtain ⟨k0, v0⟩ := kv
      obtain ⟨hk0, hv0, hmq⟩ := lineOK_parts h h1f hfes
      show (if (k0.isEmpty || v0.any isLineTermB) = true then acc
        else setKey acc (trim k0) (stripQuotesFU (trim v0)))
        = setKey acc (trim k0) (stripQuotesSpec (trim v0))
      rw [hk0, hv0]
      simp only [Bool.or_self, Bool.false_eq_true, if_false]
      rw [stripQuotesFU_eq_spec_of_ok
        (fun x hx => by
          have h3 := List.any_eq_false.mp hv0 x (mem_trim hx)
          simpa using h3) hmq]

theorem parseLineCore_eq_spec (acc : Record) (l : Str)
    (h : lineOK l = true) : parseLineCore acc l = parseLineSpec acc l := by
  unfold parseLineCore parseLineSpec
  by_cases h1 : ((trim l).isEmpty || ((trim l).head? == some '#')) = true
  · rw [if_pos h1, if_pos h1]
  · have h1f : ((trim l).isEmpty || ((trim l).head? == some '#')) = false :=
      by cases hw : ((trim l).isEmpty || ((trim l).head? == some '#')) with
         | false => rfl
         | true => exact absurd hw h1
    rw [if_neg h1, if_neg h1]
    obtain ⟨a, b, hdecomp, ha, hb⟩ := trim_decomp l
    cases hfes : firstEqSplit (trim l) with
    | none =>
      have hne : '=' ∉ trim l := (fes_eq_none_iff _).mp hfes
      have hnel : '=' ∉ l := by
        rw [hdecomp]
        intro hm
        rcases List.mem_append.mp hm with hm | hm
        · rcases List.mem_append.mp hm with hm | hm
          · have h3 := ha '=' hm
            rw [isJsWs_eq_false] at h3
            cases h3
          · exact hne hm
        · have h3 := hb '=' hm
          rw [isJsWs_eq_false] at h3
          cases h3
      rw [(fes_eq_none_iff l).mpr hnel]
    | some kv =>
      obtain ⟨k0, v0⟩ := kv
      obtain ⟨hk0, hv0, hmq⟩ := lineOK_parts h h1f hfes
      obtain ⟨hteq, hnk⟩ := fes_sound hfes
      have hl2 : l = (a ++ k0) ++ '=' :: (v0 ++ b) := by
        rw [hdecomp, hteq]
        simp [List.append_assoc]
      have hnak : '=' ∉ a ++ k0 := by
        intro hm
        rcases List.mem_append.mp hm with hm | hm
        · have h3 := ha '=' hm
          rw [isJsWs_eq_false] at h3
          cases h3
        · exact hnk hm
      have hfes_l : firstEqSplit l = some (a ++ k0, v0 ++ b) := by
        rw [hl2]; exact fes_append _ hnak
      rw [hfes_l]
      show (if (a ++ k0).isEmpty = true then acc
        else setKey acc (trim (a ++ k0)) (stripQuotesCore (trim (v0 ++ b))))
        = setKey acc (trim k0) (stripQuotesSpec (trim v0))
      have hae : (a ++ k0).isEmpty = false := by
        cases k0 with
        | nil => simp at hk0
        | cons c cs => simp [List.isEmpty_iff]
      rw [hae]
      simp only [Bool.false_eq_true, if_false]
      rw [trim_ws_append ha, trim_append_ws hb, stripQuotesCore_eq_spec]

/-- Claim C6 counterexample: on the input `K="abc'` — a value wrapped in a
mismatched quote pair, which the claim says is left unchanged — the
fileUtils `parseEnvFile` strips the quotes and so disagrees with the
claim's reference algorithm. -/
theorem c6_reference_counterexample :
    parseEnvFileFU c6Bad ≠ parseEnvSpec c6Bad := by
  decide

/-- Claim C6 as amended: both `parseEnvFile` implementations compute
exactly the reference line-by-line algorithm on every input whose parsed
lines have a key part that does not trim to nothing, a value part free of
carriage returns and other line terminators, and values that, when
quote-wrapped, use matching quotes. (Outside these conditions the three
parsers genuinely differ: the core parser keys off the raw line, the
fileUtils regex also strips mismatched quote pairs and skips values
containing `\r`.) -/
theorem c6_parsers_match_reference (content : Str)
    (h : (splitLinesJs content).all lineOK = true) :
    parseEnvFileCore content = parseEnvSpec content
    ∧ parseEnvFileFU content = parseEnvSpec content := by
  have hl := List.all_eq_true.mp h
  constructor
  · exact foldl_congr_on parseLineCore parseLineSpec lineOK
      parseLineCore_eq_spec (splitLinesJs content) []
      (fun x hx => hl x hx)
  · exact foldl_congr_on parseLineFU parseLineSpec lineOK
      parseLineFU_eq_spec (splitLinesJs content) []
      (fun x hx => hl x hx)

/-- Witness for C6 on a mixed input with comments, blank and malformed
lines, padding and matching quotes. -/
theorem c6_parsers_match_reference_witness :
    parseEnvFileCore (str "# c\nFOO=1\n BAR = 'baz'\n\nNOEQ\nQ=\"q\"")
      = parseEnvSpec (str "# c\nFOO=1\n BAR = 'baz'\n\nNOEQ\nQ=\"q\"")
    ∧ parseEnvFileFU (str "# c\nFOO=1\n BAR = 'baz'\n\nNOEQ\nQ=\"q\"")
      = parseEnvSpec (str "# c\nFOO=1\n BAR = 'baz'\n\nNOEQ\nQ=\"q\"") :=
  c6_parsers_match_reference
    (str "# c\nFOO=1\n BAR = 'baz'\n\nNOEQ\nQ=\"q\"") (by decide)
